import Mathlib

/-!
Verification of the nano-tts-deno core (nano_tts.ts) against its
natural-language specification.

Shallow embedding conventions:
* JS strings are modelled as `List Nat` (UTF-16 code units, as seen by
  `charCodeAt`) for the hash engine, and as `List Char` for the text
  segmenter (all delimiter characters involved are single code units).
* JS `Number` bit operations (`<<`, `>>>`, `&`, `^`, `| 0`) act on 32-bit
  two's-complement values; they are modelled on `Int`/`Nat` with explicit
  reduction modulo 2^32 (`toUint32` / `toInt32`).
* The fetch pipeline (`getAudioChunks`) is modelled with an explicit
  per-segment fetch outcome (`Option` of the list of network chunks read
  from the body) and an explicit in-batch task completion order; the
  `await Promise.all` barrier of the source corresponds to `runTasks`
  being applied for the whole completion order before any emission.
-/

namespace NanoAITTS

/-- Unsigned 32-bit view of a JS number that is an integer: the value
reduced into `[0, 2^32)`, as a `Nat` (ECMAScript ToUint32). -/
def toUint32 (n : Int) : Nat := (n % 4294967296).toNat

/-- Signed 32-bit view of a JS number that is an integer: the value
reduced into `[-2^31, 2^31)` (ECMAScript ToInt32, i.e. the effect of
`| 0` on an integral value). -/
def toInt32 (n : Int) : Int :=
  if n % 4294967296 < 2147483648 then n % 4294967296
  else n % 4294967296 - 4294967296

/-- JS bitwise AND `a & b`: both operands are converted to 32-bit values,
combined bitwise, and the result is read back as a signed 32-bit value. -/
def jsAnd (a b : Int) : Int := toInt32 ((toUint32 a &&& toUint32 b : Nat) : Int)

/-- JS bitwise XOR `a ^ b`. -/
def jsXor (a b : Int) : Int := toInt32 ((toUint32 a ^^^ toUint32 b : Nat) : Int)

/-- JS left shift `a << k` (operand converted to a 32-bit value, result
signed 32-bit). -/
def jsShl (a : Int) (k : Nat) : Int := toInt32 ((toUint32 a * 2 ^ k : Nat) : Int)

/-- JS unsigned right shift `a >>> k` (zero-filling; the result is the
unsigned 32-bit value, always nonnegative). -/
def jsShrU (a : Int) (k : Nat) : Int := ((toUint32 a >>> k : Nat) : Int)

/-- The fold at the end of each loop iteration of `_e` in nano_tts.ts
(source names the intermediate `it`):
`const it = at & HASH_MASK_2; if (it !== 0) { at = at ^ (it >>> 21); }` -/
def hashFold (a1 : Int) : Int :=
  if jsAnd a1 266338304 ≠ 0 then jsXor a1 (jsShrU (jsAnd a1 266338304) 21) else a1

/-- One iteration of the loop body of `_e` in nano_tts.ts for one
character code `c` (source names: accumulator `at`, char code `st`):
`at = (((at << 6) & HASH_MASK_1) + st + (st << 14)) | 0;` followed by
the conditional fold. -/
def hashStep (a : Int) (c : Nat) : Int :=
  hashFold (toInt32 (jsAnd (jsShl a 6) 268435455 + (c : Int) + jsShl (c : Int) 14))

/-- The hash function `_e` of nano_tts.ts: the loop runs the index from
`nt.length - 1` down to `0`, i.e. it processes the code units of the
input from the last to the first. -/
def _e (nt : List Nat) : Int := (nt.reverse).foldl hashStep 0

/-- Modelled from the spec's words: `truncateToSigned32`, wrapping into
the 32-bit signed range. -/
def truncateToSigned32 (n : Int) : Int := toInt32 n

/-- Modelled from the spec's words (reference computation of claim C3):
`folded = a & 0x0FE00000`; if `folded != 0`, set
`a = a XOR (folded logically-shifted-right by 21 bits, zero-filled)`. -/
def eSpecFold (a1 : Int) : Int :=
  if toUint32 a1 &&& 266338304 ≠ 0 then
    truncateToSigned32 (((toUint32 a1 ^^^ (toUint32 a1 &&& 266338304) >>> 21 : Nat) : Int))
  else a1

/-- Modelled from the spec's words (reference computation of claim C3):
for a character code `c`, set
`a = truncateToSigned32(((a << 6) & 0x0FFFFFFF) + c + (c << 14))`, then
apply the conditional XOR-fold. -/
def eSpecStep (a : Int) (c : Nat) : Int :=
  eSpecFold (truncateToSigned32
    (((toUint32 (a * 64) &&& 268435455 : Nat) : Int) + (c : Int)
      + truncateToSigned32 ((c : Int) * 16384)))

/-- Modelled from the spec's words: reference hash, accumulator starts
at 0 and the input is scanned from its last character to its first. -/
def eSpec : List Nat → Int
  | [] => 0
  | c :: rest => eSpecStep (eSpec rest) c

/-- ECMAScript whitespace (WhiteSpace and LineTerminator code points),
the set removed by `String.prototype.trim`. -/
def isJsWs (c : Char) : Bool :=
  c.toNat = 0x9 || c.toNat = 0xA || c.toNat = 0xB || c.toNat = 0xC || c.toNat = 0xD ||
  c.toNat = 0x20 || c.toNat = 0xA0 || c.toNat = 0x1680 ||
  (0x2000 ≤ c.toNat && c.toNat ≤ 0x200A) ||
  c.toNat = 0x2028 || c.toNat = 0x2029 || c.toNat = 0x202F || c.toNat = 0x205F ||
  c.toNat = 0x3000 || c.toNat = 0xFEFF

/-- JS `s.trim()`: leading and trailing whitespace removed. -/
def jsTrim (s : List Char) : List Char :=
  ((s.dropWhile isJsWs).reverse.dropWhile isJsWs).reverse

/-- The tier-1 sentence delimiters of `splitText`: the characters of the
regex `([。？！.?!\n])`. -/
def isSentenceDelim (c : Char) : Bool :=
  c = '。' || c = '？' || c = '！' || c = '.' || c = '?' || c = '!' || c = '\n'

/-- The tier-2 comma delimiters of `splitText`: the characters of the
regex `([,，])`. -/
def isCommaDelim (c : Char) : Bool := c = ',' || c = '，'

/-- JS `text.split(regex)` for a regex that is a capturing alternation of
single characters: the result alternates between (possibly empty)
delimiter-free contents at even positions and single captured delimiter
characters at odd positions. -/
def splitKeep (isD : Char → Bool) : List Char → List (List Char)
  | [] => [[]]
  | c :: rest =>
    if isD c then [] :: [c] :: splitKeep isD rest
    else
      match splitKeep isD rest with
      | [] => [[c]]
      | p :: ps => (c :: p) :: ps

/-- The sentence-reassembly loop of `splitText`:
`for (i = 0; i < parts.length; i += 2)`, pairing each content with the
delimiter that follows it (`parts[i+1] || ""`), pushing `content +
delimiter` when at least one of the two is nonempty. -/
def pairUp : List (List Char) → List (List Char)
  | [] => []
  | [c] => if c = [] then [] else [c]
  | c :: d :: rest =>
    if c = [] ∧ d = [] then pairUp rest else (c ++ d) :: pairUp rest

/-- The tier-2 greedy accumulation loop of `splitText` over comma parts:
append the next part to `current` while the combined length stays within
`maxLen`; otherwise flush a nonempty `current` and restart from the
part; flush a nonempty trailing `current` at the end. -/
def accParts (maxLen : Nat) : List (List Char) → List Char → List (List Char)
  | [], current => if current = [] then [] else [current]
  | p :: rest, current =>
    if (current ++ p).length ≤ maxLen then accParts maxLen rest (current ++ p)
    else (if current = [] then [] else [current]) ++ accParts maxLen rest p

/-- The `splitText(text, maxLen)` function of nano_tts.ts: texts within
`maxLen` are returned unchanged; otherwise tier-1 sentence split with
delimiters kept, tier-2 comma accumulation for oversized sentences, and
a final filter dropping segments whose trimmed content is empty. -/
def splitText (text : List Char) (maxLen : Nat) : List (List Char) :=
  if text.length ≤ maxLen then [text]
  else
    ((pairUp (splitKeep isSentenceDelim text)).flatMap (fun sentence =>
      if sentence.length ≤ maxLen then [sentence]
      else accParts maxLen (splitKeep isCommaDelim sentence) [])).filter
      (fun s => 0 < (jsTrim s).length)

/-- Relation: the second list is obtained from the first by deleting
some elements that consist of whitespace only (the effect of the final
filter of `splitText` on the pre-filter segment list). -/
inductive DropWs : List (List Char) → List (List Char) → Prop
  | nil : DropWs [] []
  | keep {s : List Char} {l r : List (List Char)} :
      DropWs l r → DropWs (s :: l) (s :: r)
  | drop {s : List Char} {l r : List (List Char)} :
      (∀ c ∈ s, isJsWs c = true) → DropWs l r → DropWs (s :: l) r

/-- Shape of a `splitKeep` result: delimiter-free contents alternating
with single captured delimiter characters. -/
inductive Alternating (isD : Char → Bool) : List (List Char) → Prop
  | single {s : List Char} : (∀ c ∈ s, isD c = false) → Alternating isD [s]
  | pair {s : List Char} {d : Char} {l : List (List Char)} :
      (∀ c ∈ s, isD c = false) → isD d = true → Alternating isD l →
      Alternating isD (s :: [d] :: l)

/-- The fixed browser user-agent string `this.ua` of nano_tts.ts. -/
def ua : String := "Mozilla/5.0 (Windows NT 10.0; Win64; x64) AppleWebKit/537.36 (KHTML, like Gecko) Chrome/117.0.0.0 Safari/537.36"

/-- The `getHeaders` method of nano_tts.ts. The external digest service
(`md5`), the current timestamp string (`getIso8601Time()`) and the
randomness-dependent access token (`generateMid()`) are explicit
parameters; the result is the ordered seven-field header mapping. -/
def getHeaders (md5 : String → String) (timestamp accessToken : String) :
    List (String × String) :=
  let device := "Web"
  let ver := "1.2"
  let zmUa := md5 ua
  let zmToken := md5 (device ++ timestamp ++ ver ++ accessToken ++ zmUa)
  [("device-platform", device),
   ("timestamp", timestamp),
   ("access-token", accessToken),
   ("zm-token", zmToken),
   ("zm-ver", ver),
   ("zm-ua", zmUa),
   ("User-Agent", ua)]

/-- The chunk-merging step of `fetchOne`: the read chunks are copied
back-to-back into one buffer of the total length. -/
def mergeChunks (chunks : List (List Nat)) : List Nat := chunks.flatten

/-- Effect on the shared `results` array of the tasks of one batch
completing in the order given by `order`: each task `i` stores its
assembled buffer at `results[i]` on success, and leaves the array
untouched on failure (the catch and missing-body paths of `fetchOne`). -/
def runTasks (o : Nat → Option (List Nat)) :
    List Nat → (Nat → Option (List Nat)) → (Nat → Option (List Nat))
  | [], res => res
  | i :: rest, res =>
    runTasks o rest (fun j =>
      match o i with
      | some b => if j = i then some b else res j
      | none => res j)

/-- The batch loop of `getAudioChunks`:
`for (batchStart = 0; batchStart < texts.length; batchStart += concurrency)`,
with per-batch tasks run to completion (`await Promise.all` barrier)
before the batch's results are emitted in ascending index order
(`if (results[i]) yield results[i]`). `o i` is the merged buffer of
segment `i` (`none` on failure). The structural `fuel` argument only
bounds the number of loop iterations; the top-level call passes `n`,
which always suffices since `batchStart` advances by `concurrency ≥ 2`
per iteration in batched mode. -/
def runBatches (o : Nat → Option (List Nat)) (n conc : Nat)
    (orders : Nat → List Nat) :
    Nat → Nat → (Nat → Option (List Nat)) → List (List Nat)
  | 0, _, _ => []
  | fuel + 1, batchStart, results =>
    if batchStart < n then
      (List.range' batchStart (min (batchStart + conc) n - batchStart)).filterMap
          (runTasks o (orders batchStart) results)
        ++ runBatches o n conc orders fuel (min (batchStart + conc) n)
            (runTasks o (orders batchStart) results)
    else []

/-- The serial mode of `getAudioChunks` (via `getAudioChunksSerial`):
segments processed strictly in order, each successful segment's network
chunks yielded as they arrive, failed segments skipped. -/
def getAudioChunksSerial (outcome : Nat → Option (List (List Nat))) (n : Nat) :
    List (List Nat) :=
  (List.range n).flatMap (fun i =>
    match outcome i with
    | none => []
    | some cs => cs)

/-- The `getAudioChunks` method of nano_tts.ts over `n` segments.
`outcome i` is the fetch outcome of segment `i`: `none` when the fetch
fails (non-OK status, network error, timeout or missing body), or the
list of network chunks read from the response body. `orders batchStart`
is the completion order of the concurrently running tasks of the batch
beginning at `batchStart`. The emitted value sequence is returned as a
list. -/
def getAudioChunks (outcome : Nat → Option (List (List Nat))) (n conc : Nat)
    (orders : Nat → List Nat) : List (List Nat) :=
  if conc ≤ 1 ∨ n ≤ 2 then getAudioChunksSerial outcome n
  else runBatches (fun i => (outcome i).map mergeChunks) n conc orders n 0 (fun _ => none)

/-- Concrete all-success fetch outcome used by the C1 witness. -/
def wOutcome1 : Nat → Option (List (List Nat)) := fun i => some [[i]]

/-- Concrete completion orders for the C1 witness: within every batch
the tasks complete in reverse launch order (inverted latencies). -/
def wOrders1 : Nat → List Nat := fun bs => (List.range' bs (min (bs + 2) 5 - bs)).reverse

/-- Concrete fetch outcome for the C2 witness: segment 2 of 5 fails,
all other segments succeed with two network chunks each. -/
def wOutcome2 : Nat → Option (List (List Nat)) :=
  fun i => if i = 2 then none else some [[i], [i + 1]]

/-- The success buffers underlying `wOutcome2`. -/
def wBufs2 : Nat → List (List Nat) := fun i => [[i], [i + 1]]

/-- Concrete completion orders for the C2 witness: reverse launch order
within every batch. -/
def wOrders2 : Nat → List Nat := fun bs => (List.range' bs (min (bs + 3) 5 - bs)).reverse

end NanoAITTS

namespace NanoAITTS

theorem toUint32_cast (n : Int) : (toUint32 n : Int) = n % 4294967296 := by
  unfold toUint32
  rw [Int.toNat_of_nonneg (Int.emod_nonneg n (by decide))]

theorem toInt32_emod (n : Int) : toInt32 n % 4294967296 = n % 4294967296 := by
  unfold toInt32
  split <;> omega

theorem toInt32_congr {m n : Int} (h : m % 4294967296 = n % 4294967296) :
    toInt32 m = toInt32 n := by
  unfold toInt32
  rw [h]

theorem toUint32_congr {m n : Int} (h : m % 4294967296 = n % 4294967296) :
    toUint32 m = toUint32 n := by
  unfold toUint32
  rw [h]

theorem toUint32_toInt32 (n : Int) : toUint32 (toInt32 n) = toUint32 n :=
  toUint32_congr (toInt32_emod n)

theorem toInt32_of_small {n : Int} (h0 : 0 ≤ n) (h : n < 2147483648) :
    toInt32 n = n := by
  unfold toInt32
  split <;> omega

theorem toUint32_natCast_small {n : Nat} (h : n < 4294967296) :
    toUint32 (n : Int) = n := by
  have hc := toUint32_cast (n : Int)
  omega

theorem toUint32_lt (n : Int) : toUint32 n < 4294967296 := by
  have hc := toUint32_cast n
  omega

theorem toUint32_mask1 :
    toUint32 (268435455 : Int) = 268435455 := by
  have hc := toUint32_cast (268435455 : Int)
  omega

theorem toUint32_mask2 :
    toUint32 (266338304 : Int) = 266338304 := by
  have hc := toUint32_cast (266338304 : Int)
  omega

theorem jsAnd_mask1 (x : Int) :
    jsAnd x 268435455 = ((toUint32 x &&& 268435455 : Nat) : Int) := by
  rw [jsAnd, toUint32_mask1]
  have hle : toUint32 x &&& 268435455 ≤ 268435455 := Nat.and_le_right
  exact toInt32_of_small (by omega) (by omega)

theorem jsAnd_mask2 (x : Int) :
    jsAnd x 266338304 = ((toUint32 x &&& 266338304 : Nat) : Int) := by
  rw [jsAnd, toUint32_mask2]
  have hle : toUint32 x &&& 266338304 ≤ 266338304 := Nat.and_le_right
  exact toInt32_of_small (by omega) (by omega)

theorem hashFold_eq_eSpecFold (a1 : Int) : hashFold a1 = eSpecFold a1 := by
  unfold hashFold eSpecFold
  rw [jsAnd_mask2]
  have hle : toUint32 a1 &&& 266338304 ≤ 266338304 := Nat.and_le_right
  have hcond : (((toUint32 a1 &&& 266338304 : Nat) : Int) ≠ 0)
      ↔ (toUint32 a1 &&& 266338304 ≠ 0) := by
    omega
  have hsm : toUint32 (((toUint32 a1 &&& 266338304 : Nat) : Int))
      = toUint32 a1 &&& 266338304 := toUint32_natCast_small (by omega)
  by_cases hz : toUint32 a1 &&& 266338304 = 0
  · rw [if_neg (by omega), if_neg (by simpa using hz)]
  · rw [if_pos (by omega), if_pos hz]
    rw [jsXor, jsShrU, hsm, truncateToSigned32]
    congr 2
    have hshift : (toUint32 a1 &&& 266338304) >>> 21 ≤ toUint32 a1 &&& 266338304 := by
      rw [Nat.shiftRight_eq_div_pow]
      exact Nat.div_le_self _ _
    rw [toUint32_natCast_small (by omega)]

theorem hashStep_eq_eSpecStep (a : Int) (c : Nat) : hashStep a c = eSpecStep a c := by
  have hshl : toUint32 (jsShl a 6) = toUint32 (a * 64) := by
    apply toUint32_congr
    rw [jsShl, toInt32_emod]
    have hc := toUint32_cast a
    push_cast
    omega
  have hA : jsAnd (jsShl a 6) 268435455
      = ((toUint32 (a * 64) &&& 268435455 : Nat) : Int) := by
    rw [jsAnd_mask1, hshl]
  have hC : jsShl (c : Int) 14 = truncateToSigned32 ((c : Int) * 16384) := by
    rw [jsShl, truncateToSigned32]
    apply toInt32_congr
    have hc := toUint32_cast (c : Int)
    push_cast
    omega
  rw [hashStep, eSpecStep, hA, hC, hashFold_eq_eSpecFold]
  rfl

/-- C3 — the hash `_e` is pure and deterministic and equals the spec's
reference computation (accumulator scanned from the last character to
the first, with `truncateToSigned32` wrapping, masking and the
conditional zero-filled XOR-fold); on the empty string it returns 0.
Determinism is inherent: `_e` is a pure Lean function of its input. -/
theorem e_matches_reference :
    (∀ s : List Nat, _e s = eSpec s) ∧ _e [] = 0 := by
  constructor
  · intro s
    unfold _e
    rw [List.foldl_reverse]
    induction s with
    | nil => rfl
    | cons c rest ih =>
      rw [List.foldr_cons, ih, hashStep_eq_eSpecStep]
      rfl
  · rfl

theorem hashFold_bounds {a1 : Int} (h0 : 0 ≤ a1) (h1 : a1 < 2147483648) :
    0 ≤ hashFold a1 ∧ hashFold a1 < 2147483648 := by
  unfold hashFold
  rw [jsAnd_mask2]
  have hle : toUint32 a1 &&& 266338304 ≤ 266338304 := Nat.and_le_right
  by_cases hz : toUint32 a1 &&& 266338304 = 0
  · rw [if_neg (by omega)]
    exact ⟨h0, h1⟩
  · rw [if_pos (by omega)]
    rw [jsXor, jsShrU]
    have hsm : toUint32 (((toUint32 a1 &&& 266338304 : Nat) : Int))
        = toUint32 a1 &&& 266338304 := toUint32_natCast_small (by omega)
    rw [hsm]
    have hshift : (toUint32 a1 &&& 266338304) >>> 21 ≤ toUint32 a1 &&& 266338304 := by
      rw [Nat.shiftRight_eq_div_pow]
      exact Nat.div_le_self _ _
    have hsm2 : toUint32 ((((toUint32 a1 &&& 266338304) >>> 21 : Nat) : Int))
        = (toUint32 a1 &&& 266338304) >>> 21 := toUint32_natCast_small (by omega)
    rw [hsm2]
    have hu1 : toUint32 a1 < 2147483648 := by
      have hc := toUint32_cast a1
      omega
    have hu2 : (toUint32 a1 &&& 266338304) >>> 21 < 2147483648 := by omega
    have hxor : toUint32 a1 ^^^ (toUint32 a1 &&& 266338304) >>> 21 < 2147483648 := by
      have h31 : (2147483648 : Nat) = 2 ^ 31 := by norm_num
      rw [h31] at hu1 hu2 ⊢
      exact Nat.xor_lt_two_pow hu1 hu2
    rw [toInt32_of_small (by omega) (by omega)]
    omega

/-- Every step of the hash keeps the accumulator in `[0, 2^31)` whenever
the character code is a genuine UTF-16 code unit (`c < 2^16`), whatever
the previous accumulator was. -/
theorem hashStep_bounds (a : Int) (c : Nat) (hc : c < 65536) :
    0 ≤ hashStep a c ∧ hashStep a c < 2147483648 := by
  rw [hashStep, jsAnd_mask1]
  have hle : toUint32 (jsShl a 6) &&& 268435455 ≤ 268435455 := Nat.and_le_right
  have hshl : jsShl (c : Int) 14 = ((c * 16384 : Nat) : Int) := by
    rw [jsShl]
    rw [toUint32_natCast_small (by omega)]
    exact toInt32_of_small (by omega) (by omega)
  rw [hshl]
  have hsum0 : 0 ≤ ((toUint32 (jsShl a 6) &&& 268435455 : Nat) : Int) + (c : Int)
      + ((c * 16384 : Nat) : Int) := by omega
  have hsum1 : ((toUint32 (jsShl a 6) &&& 268435455 : Nat) : Int) + (c : Int)
      + ((c * 16384 : Nat) : Int) < 2147483648 := by omega
  rw [toInt32_of_small hsum0 hsum1]
  exact hashFold_bounds hsum0 hsum1

/-- C9 — for every string (list of UTF-16 code units), `_e` returns an
integer in the signed 32-bit range `[-2^31, 2^31 - 1]`, including after
the conditional XOR-fold step. -/
theorem e_in_int32_range (s : List Nat) (hs : ∀ c ∈ s, c < 65536) :
    -2147483648 ≤ _e s ∧ _e s ≤ 2147483647 := by
  unfold _e
  have key : ∀ (l : List Nat) (a : Int), (∀ c ∈ l, c < 65536) →
      0 ≤ a → a < 2147483648 →
      0 ≤ l.foldl hashStep a ∧ l.foldl hashStep a < 2147483648 := by
    intro l
    induction l with
    | nil => intro a _ h0 h1; exact ⟨h0, h1⟩
    | cons c rest ih =>
      intro a hmem h0 h1
      rw [List.foldl_cons]
      have hb := hashStep_bounds a c (hmem c (by simp))
      exact ih (hashStep a c) (fun x hx => hmem x (by simp [hx])) hb.1 hb.2
  have h := key s.reverse 0 (fun c hc => hs c (List.mem_reverse.mp hc)) (by omega) (by omega)
  omega

/-- Witness for C9 at a concrete input: the string "hi" (code units
104, 105). -/
theorem e_in_int32_range_witness :
    -2147483648 ≤ _e [104, 105] ∧ _e [104, 105] ≤ 2147483647 :=
  e_in_int32_range [104, 105] (by decide)

theorem splitKeep_flatten (isD : Char → Bool) :
    ∀ t : List Char, (splitKeep isD t).flatten = t := by
  intro t
  induction t with
  | nil => rfl
  | cons c rest ih =>
    rw [splitKeep]
    by_cases h : isD c
    · simp only [h, if_pos]
      simp [ih]
    · simp only [h, if_neg, Bool.false_eq_true, not_false_iff]
      cases hsk : splitKeep isD rest with
      | nil =>
        rw [hsk] at ih
        simp at ih
        simp [← ih]
      | cons p ps =>
        rw [hsk] at ih
        simp only [List.flatten_cons] at ih ⊢
        simp [← List.cons_append, ih]

theorem pairUp_flatten : ∀ l : List (List Char), (pairUp l).flatten = l.flatten
  | [] => rfl
  | [c] => by
    rw [pairUp]
    by_cases h : c = [] <;> simp [h]
  | c :: d :: rest => by
    rw [pairUp]
    by_cases h : c = [] ∧ d = []
    · rw [if_pos h]
      simp [h.1, h.2, pairUp_flatten rest]
    · rw [if_neg h]
      simp [pairUp_flatten rest]

theorem accParts_flatten (ml : Nat) :
    ∀ (parts : List (List Char)) (current : List Char),
      (accParts ml parts current).flatten = current ++ parts.flatten := by
  intro parts
  induction parts with
  | nil =>
    intro current
    rw [accParts]
    by_cases h : current = [] <;> simp [h]
  | cons p rest ih =>
    intro current
    rw [accParts]
    by_cases h : (current ++ p).length ≤ ml
    · rw [if_pos h, ih]
      simp
    · rw [if_neg h]
      by_cases hc : current = [] <;> simp [hc, ih]

/-- C5 — a text whose length is within `maxLen` is returned unchanged as
a one-element list: no splitting and no filtering is applied. -/
theorem splitText_short_identity (text : List Char) (maxLen : Nat)
    (h : text.length ≤ maxLen) : splitText text maxLen = [text] := by
  rw [splitText, if_pos h]

/-- Witness for C5 at a concrete input: the two-character text "hi" with
`maxLen = 5`. -/
theorem splitText_short_identity_witness :
    splitText ['h', 'i'] 5 = [['h', 'i']] :=
  splitText_short_identity ['h', 'i'] 5 (by decide)

theorem jsTrim_eq_nil_iff (s : List Char) :
    jsTrim s = [] ↔ ∀ c ∈ s, isJsWs c = true := by
  rw [jsTrim, List.reverse_eq_nil_iff, List.dropWhile_eq_nil_iff]
  constructor
  · intro h c hc
    rcases List.mem_append.mp
        (by rw [List.takeWhile_append_dropWhile isJsWs s]; exact hc) with h1 | h1
    · exact List.mem_takeWhile_imp h1
    · exact h c (List.mem_reverse.mpr h1)
  · intro h c hc
    exact h c ((List.dropWhile_sublist isJsWs).mem (List.mem_reverse.mp hc))

theorem dropWs_filter (l : List (List Char)) :
    DropWs l (l.filter (fun s => 0 < (jsTrim s).length)) := by
  induction l with
  | nil => exact DropWs.nil
  | cons s rest ih =>
    by_cases h : 0 < (jsTrim s).length
    · rw [List.filter_cons_of_pos (by simpa using h)]
      exact DropWs.keep ih
    · rw [List.filter_cons_of_neg (by simpa using h)]
      exact DropWs.drop ((jsTrim_eq_nil_iff s).mp
        (List.length_eq_zero.mp (by omega))) ih

theorem flatMap_flatten_fixed {l : List (List Char)} {f : List Char → List (List Char)}
    (h : ∀ s ∈ l, (f s).flatten = s) : (l.flatMap f).flatten = l.flatten := by
  induction l with
  | nil => rfl
  | cons s rest ih =>
    rw [List.flatMap_cons, List.flatten_append, List.flatten_cons,
      h s (by simp), ih (fun x hx => h x (by simp [hx]))]

theorem splitKeep_alternating (isD : Char → Bool) :
    ∀ t : List Char, Alternating isD (splitKeep isD t) := by
  intro t
  induction t with
  | nil => exact Alternating.single (by simp)
  | cons c rest ih =>
    rw [splitKeep]
    by_cases h : isD c
    · rw [if_pos h]
      exact Alternating.pair (by simp) h ih
    · rw [if_neg h]
      cases hsk : splitKeep isD rest with
      | nil =>
        exact Alternating.single (by
          intro x hx
          rcases List.mem_singleton.mp hx with rfl
          simpa using h)
      | cons p ps =>
        rw [hsk] at ih
        cases ih with
        | single hs =>
          exact Alternating.single (by
            intro x hx
            rcases List.mem_cons.mp hx with rfl | hx'
            · simpa using h
            · exact hs x hx')
        | pair hs hd hl =>
          exact Alternating.pair (by
            intro x hx
            rcases List.mem_cons.mp hx with rfl | hx'
            · simpa using h
            · exact hs x hx') hd hl

theorem alternating_pairUp_dropLast {isD : Char → Bool} {l : List (List Char)}
    (h : Alternating isD l) :
    ∀ s ∈ pairUp l, ∀ c ∈ s.dropLast, isD c = false := by
  induction h with
  | single hs =>
    intro s hmem c hc
    rw [pairUp] at hmem
    split at hmem
    · simp at hmem
    · rcases List.mem_singleton.mp hmem with rfl
      exact hs c ((List.dropLast_sublist s).mem hc)
  | pair hs hd _ ih =>
    intro x hmem c hc
    rw [pairUp, if_neg (by simp)] at hmem
    rcases List.mem_cons.mp hmem with rfl | hx'
    · rw [List.dropLast_concat] at hc
      exact hs c hc
    · exact ih x hx' c hc

theorem mem_dropLast_flatten :
    ∀ (ps : List (List Char)) (b : List Char), b ∈ ps →
      ∀ c ∈ b.dropLast, c ∈ ps.flatten.dropLast := by
  intro ps
  induction ps with
  | nil => intro b hb; simp at hb
  | cons q rest ih =>
    intro b hb c hc
    rw [List.flatten_cons]
    rcases List.mem_cons.mp hb with rfl | hb'
    · by_cases hr : rest.flatten = []
      · rw [hr, List.append_nil]
        exact hc
      · rw [List.dropLast_append_of_ne_nil _ hr]
        exact List.mem_append_left _ ((List.dropLast_sublist b).mem hc)
    · have h2 := ih b hb' c hc
      have hr : rest.flatten ≠ [] := by
        intro hnil
        rw [hnil] at h2
        simp at h2
      rw [List.dropLast_append_of_ne_nil _ hr]
      exact List.mem_append_right _ h2

/-- C4 — concatenating the returned segments in order reconstructs the
text: the returned list is the pre-filter segmentation (whose
concatenation is exactly `text`, with no character lost, duplicated or
reordered) with some whitespace-only segments dropped; and whenever
splitting actually occurs, a sentence delimiter can only appear as the
last character of a segment (it stays attached to the end of its
preceding content). -/
theorem splitText_reconstructs (text : List Char) (maxLen : Nat) :
    (∃ full : List (List Char), full.flatten = text
        ∧ DropWs full (splitText text maxLen))
    ∧ (maxLen < text.length → ∀ seg ∈ splitText text maxLen,
        ∀ c ∈ seg.dropLast, isSentenceDelim c = false) := by
  by_cases h : text.length ≤ maxLen
  · refine ⟨⟨[text], by simp, ?_⟩, by omega⟩
    rw [splitText, if_pos h]
    exact DropWs.keep DropWs.nil
  · have hsplit : splitText text maxLen
        = ((pairUp (splitKeep isSentenceDelim text)).flatMap (fun sentence =>
            if sentence.length ≤ maxLen then [sentence]
            else accParts maxLen (splitKeep isCommaDelim sentence) [])).filter
          (fun s => 0 < (jsTrim s).length) := by
      rw [splitText, if_neg h]
    constructor
    · refine ⟨(pairUp (splitKeep isSentenceDelim text)).flatMap (fun sentence =>
        if sentence.length ≤ maxLen then [sentence]
        else accParts maxLen (splitKeep isCommaDelim sentence) []), ?_, ?_⟩
      · rw [flatMap_flatten_fixed, pairUp_flatten, splitKeep_flatten]
        intro s _
        by_cases hs : s.length ≤ maxLen
        · simp [hs]
        · rw [if_neg hs, accParts_flatten, splitKeep_flatten]
          rfl
      · rw [hsplit]
        exact dropWs_filter _
    · intro _ seg hseg c hc
      rw [hsplit] at hseg
      have hseg2 := (List.mem_filter.mp hseg).1
      rcases List.mem_flatMap.mp hseg2 with ⟨sentence, hsent, hin⟩
      have hP : ∀ x ∈ sentence.dropLast, isSentenceDelim x = false :=
        alternating_pairUp_dropLast (splitKeep_alternating isSentenceDelim text)
          sentence hsent
      by_cases hs : sentence.length ≤ maxLen
      · rw [if_pos hs] at hin
        rcases List.mem_singleton.mp hin with rfl
        exact hP c hc
      · rw [if_neg hs] at hin
        have hflat : (accParts maxLen (splitKeep isCommaDelim sentence) []).flatten
            = sentence := by
          rw [accParts_flatten, splitKeep_flatten]
          rfl
        have := mem_dropLast_flatten _ seg hin c hc
        rw [hflat] at this
        exact hP c this

/-- Witness for C4: instantiation at the concrete text "ab.cd" with
`maxLen = 3` (the splitting path). -/
theorem splitText_reconstructs_witness :
    (∃ full : List (List Char), full.flatten = ['a', 'b', '.', 'c', 'd']
        ∧ DropWs full (splitText ['a', 'b', '.', 'c', 'd'] 3))
    ∧ (3 < (['a', 'b', '.', 'c', 'd'] : List Char).length →
        ∀ seg ∈ splitText ['a', 'b', '.', 'c', 'd'] 3,
          ∀ c ∈ seg.dropLast, isSentenceDelim c = false) :=
  splitText_reconstructs ['a', 'b', '.', 'c', 'd'] 3

/-- C6 (amended) — whenever splitting occurs (`text.length > maxLen`),
no returned segment is empty or whitespace-only: every returned segment
has nonempty trimmed content. (The claim is false as stated for the
short-text path, which returns the text unchanged and unfiltered.) -/
theorem splitText_no_blank_segments (text : List Char) (maxLen : Nat)
    (h : maxLen < text.length) :
    ∀ s ∈ splitText text maxLen, 0 < (jsTrim s).length := by
  intro s hs
  rw [splitText, if_neg (by omega)] at hs
  simpa using (List.mem_filter.mp hs).2

/-- Witness for the amended C6 at a concrete input: text "ab" with
`maxLen = 1`, instantiated at its returned segment "ab". -/
theorem splitText_no_blank_segments_witness :
    0 < (jsTrim ['a', 'b']).length :=
  splitText_no_blank_segments ['a', 'b'] 1 (by decide) ['a', 'b'] (by decide)

/-- Counterexample to C6 as stated: for the whitespace-only input text
" " (a single space) with `maxLen = 200`, `splitText` returns the text
itself as a segment, which is whitespace-only (its trimmed content is
empty). -/
theorem splitText_blank_counterexample :
    splitText [' '] 200 = [[' ']] ∧ ¬ 0 < (jsTrim [' ']).length := by
  constructor
  · rfl
  · decide

theorem accParts_mem_self (ml : Nat) :
    ∀ (parts : List (List Char)) (current : List Char),
      ml < current.length → current ∈ accParts ml parts current := by
  intro parts
  induction parts with
  | nil =>
    intro current h
    rw [accParts, if_neg (by intro hnil; rw [hnil] at h; simp at h)]
    exact List.mem_singleton.mpr rfl
  | cons p rest ih =>
    intro current h
    rw [accParts, if_neg (by rw [List.length_append]; omega),
      if_neg (by intro hnil; rw [hnil] at h; simp at h)]
    exact List.mem_append_left _ (List.mem_singleton.mpr rfl)

theorem accParts_mem_oversized (ml : Nat) :
    ∀ (parts : List (List Char)) (current p : List Char),
      p ∈ parts → ml < p.length → p ∈ accParts ml parts current := by
  intro parts
  induction parts with
  | nil =>
    intro current p hp
    simp at hp
  | cons q rest ih =>
    intro current p hp hlen
    rw [accParts]
    rcases List.mem_cons.mp hp with rfl | hp'
    · rw [if_neg (by rw [List.length_append]; omega)]
      exact List.mem_append_right _ (accParts_mem_self ml rest p hlen)
    · by_cases hfit : (current ++ q).length ≤ ml
      · rw [if_pos hfit]
        exact ih _ p hp' hlen
      · rw [if_neg hfit]
        exact List.mem_append_right _ (ih q p hp' hlen)

/-- C7 (amended) — an atomic tier-2 unit (a comma-free part of an
oversized tier-1 sentence) whose length exceeds `maxLen` is emitted by
`splitText` as its own segment, unsplit and untruncated, provided its
trimmed content is nonempty (it contains at least one non-whitespace
character). (The proviso is forced: a whitespace-only oversized unit is
removed by the final filter, see the counterexample.) -/
theorem oversized_atomic_unit_emitted (text : List Char) (maxLen : Nat)
    (sentence p : List Char)
    (htext : maxLen < text.length)
    (hsent : sentence ∈ pairUp (splitKeep isSentenceDelim text))
    (hslen : maxLen < sentence.length)
    (hp : p ∈ splitKeep isCommaDelim sentence)
    (_hatomic : ∀ c ∈ p, isCommaDelim c = false)
    (hplen : maxLen < p.length)
    (hws : ∃ c ∈ p, isJsWs c = false) :
    p ∈ splitText text maxLen := by
  rw [splitText, if_neg (by omega)]
  apply List.mem_filter.mpr
  refine ⟨List.mem_flatMap.mpr ⟨sentence, hsent, ?_⟩, ?_⟩
  · rw [if_neg (by omega)]
    exact accParts_mem_oversized maxLen _ [] p hp hplen
  · simp only [decide_eq_true_eq]
    rcases hws with ⟨c, hc, hcws⟩
    have hne : jsTrim p ≠ [] := by
      intro hnil
      have := (jsTrim_eq_nil_iff p).mp hnil c hc
      rw [this] at hcws
      simp at hcws
    exact List.length_pos.mpr hne

/-- Witness for the amended C7 at a concrete input: the comma-free text
"abcd" with `maxLen = 2` is one oversized sentence that is emitted
whole. -/
theorem oversized_atomic_unit_emitted_witness :
    ['a', 'b', 'c', 'd'] ∈ splitText ['a', 'b', 'c', 'd'] 2 :=
  oversized_atomic_unit_emitted ['a', 'b', 'c', 'd'] 2
    ['a', 'b', 'c', 'd'] ['a', 'b', 'c', 'd']
    (by decide) (by decide) (by decide) (by decide) (by decide) (by decide)
    ⟨'a', by decide, by decide⟩

/-- Counterexample to C7 as stated: for the text consisting of three
spaces and a newline with `maxLen = 2`, the whole text is an oversized
comma-free tier-2 atomic unit of an oversized tier-1 sentence, yet it is
not emitted by `splitText` (the final filter drops it because its
trimmed content is empty). -/
theorem oversized_atomic_unit_counterexample :
    2 < ([' ', ' ', ' ', '\n'] : List Char).length
    ∧ [' ', ' ', ' ', '\n'] ∈ pairUp (splitKeep isSentenceDelim [' ', ' ', ' ', '\n'])
    ∧ [' ', ' ', ' ', '\n'] ∈ splitKeep isCommaDelim [' ', ' ', ' ', '\n']
    ∧ (∀ c ∈ ([' ', ' ', ' ', '\n'] : List Char), isCommaDelim c = false)
    ∧ [' ', ' ', ' ', '\n'] ∉ splitText [' ', ' ', ' ', '\n'] 2 := by
  decide

theorem alternating_parts_ok {l : List (List Char)}
    (h : Alternating isCommaDelim l) (ml : Nat) (h1 : 1 ≤ ml) :
    ∀ q ∈ l, q.length ≤ ml ∨ ∀ c ∈ q, isCommaDelim c = false := by
  induction h with
  | single hs =>
    intro q hq
    rcases List.mem_singleton.mp hq with rfl
    exact Or.inr hs
  | pair hs _ _ ih =>
    intro q hq
    rcases List.mem_cons.mp hq with rfl | hq'
    · exact Or.inr hs
    · rcases List.mem_cons.mp hq' with rfl | hq''
      · exact Or.inl (by simpa using h1)
      · exact ih q hq''

theorem accParts_length_or_comma_free (ml : Nat) :
    ∀ (parts : List (List Char)) (current : List Char),
      (∀ q ∈ parts, q.length ≤ ml ∨ ∀ c ∈ q, isCommaDelim c = false) →
      (current.length ≤ ml ∨ ∀ c ∈ current, isCommaDelim c = false) →
      ∀ b ∈ accParts ml parts current,
        b.length ≤ ml ∨ ∀ c ∈ b, isCommaDelim c = false := by
  intro parts
  induction parts with
  | nil =>
    intro current _ hcur b hb
    rw [accParts] at hb
    split at hb
    · simp at hb
    · rcases List.mem_singleton.mp hb with rfl
      exact hcur
  | cons q rest ih =>
    intro current hparts hcur b hb
    rw [accParts] at hb
    have hqok := hparts q (by simp)
    have hrest : ∀ x ∈ rest, x.length ≤ ml ∨ ∀ c ∈ x, isCommaDelim c = false :=
      fun x hx => hparts x (by simp [hx])
    split at hb
    · exact ih _ hrest (Or.inl (by assumption)) b hb
    · rcases List.mem_append.mp hb with hb' | hb'
      · split at hb'
        · simp at hb'
        · rcases List.mem_singleton.mp hb' with rfl
          exact hcur
      · exact ih q hrest hqok b hb'

/-- C10 (amended) — whenever splitting occurs and `maxLen ≥ 1`, every
segment returned by `splitText` either has length at most `maxLen` or
contains no comma character: oversized segments are exactly single
comma-free units. (For `maxLen = 0` the claim fails: a single captured
comma delimiter is itself an oversized comma-containing segment, see the
counterexample.) -/
theorem splitText_length_or_comma_free (text : List Char) (maxLen : Nat)
    (h1 : 1 ≤ maxLen) (h : maxLen < text.length) :
    ∀ seg ∈ splitText text maxLen,
      seg.length ≤ maxLen ∨ ∀ c ∈ seg, isCommaDelim c = false := by
  intro seg hseg
  rw [splitText, if_neg (by omega)] at hseg
  have hseg2 := (List.mem_filter.mp hseg).1
  rcases List.mem_flatMap.mp hseg2 with ⟨sentence, _, hin⟩
  by_cases hs : sentence.length ≤ maxLen
  · rw [if_pos hs] at hin
    rcases List.mem_singleton.mp hin with rfl
    exact Or.inl hs
  · rw [if_neg hs] at hin
    exact accParts_length_or_comma_free maxLen _ []
      (alternating_parts_ok (splitKeep_alternating isCommaDelim sentence) maxLen h1)
      (Or.inl (by simp)) seg hin

/-- Witness for the amended C10 at a concrete input: text "a,bb" with
`maxLen = 2`, instantiated at its returned segment "a,". -/
theorem splitText_length_or_comma_free_witness :
    (['a', ','] : List Char).length ≤ 2
    ∨ ∀ c ∈ (['a', ','] : List Char), isCommaDelim c = false :=
  splitText_length_or_comma_free ['a', ',', 'b', 'b'] 2 (by decide) (by decide)
    ['a', ','] (by decide)

/-- Counterexample to C10 as stated: for text "a,b" with `maxLen = 0`
(text longer than `maxLen`), the returned segment "," contains a comma
and has length greater than `maxLen`. -/
theorem splitText_comma_counterexample :
    ¬ (∀ seg ∈ splitText ['a', ',', 'b'] 0,
        seg.length ≤ 0 ∨ ∀ c ∈ seg, isCommaDelim c = false) := by
  decide

/-- C8 — `getHeaders` returns exactly the seven field names in the
source's order, with the constant fields `device-platform = "Web"`,
`zm-ver = "1.2"` and `User-Agent = ua`, the supplied timestamp and
access token, `zm-ua` the digest of the user agent, and `zm-token` the
digest of the concatenation
device-platform + timestamp + zm-ver + access-token + zm-ua in exactly
that order — for every digest function, timestamp and access token. -/
theorem getHeaders_fields (md5 : String → String) (timestamp accessToken : String) :
    ((getHeaders md5 timestamp accessToken).map Prod.fst
      = ["device-platform", "timestamp", "access-token", "zm-token",
         "zm-ver", "zm-ua", "User-Agent"])
    ∧ (getHeaders md5 timestamp accessToken).lookup "device-platform" = some "Web"
    ∧ (getHeaders md5 timestamp accessToken).lookup "timestamp" = some timestamp
    ∧ (getHeaders md5 timestamp accessToken).lookup "access-token" = some accessToken
    ∧ (getHeaders md5 timestamp accessToken).lookup "zm-token"
        = some (md5 ("Web" ++ timestamp ++ "1.2" ++ accessToken ++ md5 ua))
    ∧ (getHeaders md5 timestamp accessToken).lookup "zm-ver" = some "1.2"
    ∧ (getHeaders md5 timestamp accessToken).lookup "zm-ua" = some (md5 ua)
    ∧ (getHeaders md5 timestamp accessToken).lookup "User-Agent" = some ua := by
  refine ⟨rfl, rfl, rfl, rfl, rfl, rfl, rfl, rfl⟩

theorem runTasks_apply (o : Nat → Option (List Nat)) :
    ∀ (order : List Nat) (res : Nat → Option (List Nat)) (j : Nat),
      runTasks o order res j
        = if j ∈ order ∧ (o j).isSome then o j else res j := by
  intro order
  induction order with
  | nil =>
    intro res j
    simp [runTasks]
  | cons i rest ih =>
    intro res j
    rw [runTasks, ih]
    by_cases hj : j = i
    · subst hj
      cases ho : o j with
      | some b => by_cases hr : j ∈ rest <;> simp [ho, hr]
      | none => by_cases hr : j ∈ rest <;> simp [ho, hr]
    · by_cases hr : j ∈ rest
      · cases ho : o i with
        | some b => simp [ho, hr, hj]
        | none => simp [ho, hr, hj]
      · cases ho : o i with
        | some b => simp [ho, hr, hj]
        | none => simp [ho, hr, hj]

theorem range'_split (s m n : Nat) (h1 : s ≤ m) (h2 : m ≤ n) :
    List.range' s (m - s) ++ List.range' m (n - m) = List.range' s (n - s) := by
  have h := List.range'_append s (m - s) (n - m) 1
  rw [one_mul, Nat.add_sub_cancel' h1] at h
  rw [h]
  congr 1
  omega

theorem runBatches_filterMap (o : Nat → Option (List Nat)) (n conc : Nat)
    (orders : Nat → List Nat) (hconc : 0 < conc)
    (horders : ∀ bs, (orders bs).Perm (List.range' bs (min (bs + conc) n - bs))) :
    ∀ (fuel bs : Nat) (results : Nat → Option (List Nat)), n - bs ≤ fuel →
      (∀ j, bs ≤ j → results j = none) →
      runBatches o n conc orders fuel bs results = (List.range' bs (n - bs)).filterMap o := by
  intro fuel
  induction fuel with
  | zero =>
    intro bs results hk _
    rw [runBatches, show n - bs = 0 from by omega]
    rfl
  | succ fuel ih =>
    intro bs results hk hres
    by_cases hbs : bs < n
    · obtain ⟨M, hM, hm1, hm2⟩ : ∃ M, min (bs + conc) n = M ∧ bs < M ∧ M ≤ n := by
        refine ⟨min (bs + conc) n, rfl, ?_, ?_⟩ <;> omega
      have horder1 := horders bs
      rw [hM] at horder1
      rw [runBatches, if_pos hbs, hM]
      have hmemorder : ∀ j, j ∈ orders bs ↔ bs ≤ j ∧ j < M := by
        intro j
        rw [horder1.mem_iff, List.mem_range'_1]
        omega
      have hemit : (List.range' bs (M - bs)).filterMap
            (runTasks o (orders bs) results)
          = (List.range' bs (M - bs)).filterMap o := by
        apply List.filterMap_congr
        intro j hj
        rw [List.mem_range'_1] at hj
        rw [runTasks_apply]
        have hjo : j ∈ orders bs := (hmemorder j).mpr (by omega)
        cases ho : o j with
        | some b => simp [hjo, ho]
        | none =>
          rw [if_neg (by simp [ho])]
          exact hres j (by omega)
      have hres2 : ∀ j, M ≤ j →
          runTasks o (orders bs) results j = none := by
        intro j hj
        rw [runTasks_apply,
          if_neg (by rw [hmemorder j]; omega)]
        exact hres j (by omega)
      rw [hemit, ih M _ (by omega) hres2]
      rw [← List.filterMap_append, range'_split bs M n (by omega) hm2]
    · rw [runBatches, if_neg hbs, show n - bs = 0 from by omega]
      rfl

/-- C1 — in batched-concurrent mode (`concurrency > 1` and more than 2
segments), for every per-segment fetch outcome and every in-batch
completion order (any permutation of each batch's indices),
`getAudioChunks` emits exactly the assembled (merged) buffers of the
successful segments in strictly ascending original segment index order;
the right-hand side does not mention the completion orders, so the
completion order never affects the emitted sequence. Every task of a
batch is awaited before emission: `runBatches` applies `runTasks` for
the whole completion order of a batch before the batch's buffers are
read and before the next batch starts. -/
theorem getAudioChunks_batched_ordered (outcome : Nat → Option (List (List Nat)))
    (n conc : Nat) (orders : Nat → List Nat)
    (hconc : 1 < conc) (hn : 2 < n)
    (horders : ∀ bs, (orders bs).Perm (List.range' bs (min (bs + conc) n - bs))) :
    getAudioChunks outcome n conc orders
      = (List.range n).filterMap (fun i => (outcome i).map mergeChunks) := by
  rw [getAudioChunks, if_neg (by omega)]
  rw [runBatches_filterMap _ n conc orders (by omega) horders n 0 _ (by omega)
    (fun j _ => rfl)]
  rw [List.range_eq_range', Nat.sub_zero]

/-- Witness for C1: 5 segments, concurrency 2, all fetches succeed, and
within every batch the tasks complete in reverse launch order (inverted
latencies); the emitted order is still the original index order
0,1,2,3,4. -/
theorem getAudioChunks_batched_ordered_witness :
    getAudioChunks wOutcome1 5 2 wOrders1 = [[0], [1], [2], [3], [4]] := by
  rw [getAudioChunks_batched_ordered wOutcome1 5 2 wOrders1 (by decide) (by decide)
    (fun bs => List.reverse_perm (List.range' bs (min (bs + 2) 5 - bs)))]
  decide

/-- C2 — in batched-concurrent mode, if the fetch of segment `f` fails
while every other segment succeeds, `getAudioChunks` emits exactly the
merged buffers of the successful segments in ascending index order:
nothing is emitted for the failed segment, and the failure neither
aborts the other segments nor terminates the sequence. -/
theorem getAudioChunks_drops_failed (outcome : Nat → Option (List (List Nat)))
    (n conc : Nat) (orders : Nat → List Nat) (f : Nat) (bufs : Nat → List (List Nat))
    (hconc : 1 < conc) (hn : 2 < n)
    (horders : ∀ bs, (orders bs).Perm (List.range' bs (min (bs + conc) n - bs)))
    (hf : f < n) (hfail : outcome f = none)
    (hsucc : ∀ i, i < n → i ≠ f → outcome i = some (bufs i)) :
    getAudioChunks outcome n conc orders
      = ((List.range n).filter (fun i => i ≠ f)).map (fun i => mergeChunks (bufs i)) := by
  rw [getAudioChunks, if_neg (by omega)]
  rw [runBatches_filterMap _ n conc orders (by omega) horders n 0 _ (by omega)
    (fun j _ => rfl)]
  rw [List.range_eq_range', Nat.sub_zero, ← List.range_eq_range']
  have key : ∀ l : List Nat, (∀ i ∈ l, i < n) →
      l.filterMap (fun i => (outcome i).map mergeChunks)
        = (l.filter (fun i => i ≠ f)).map (fun i => mergeChunks (bufs i)) := by
    intro l
    induction l with
    | nil => intro _; rfl
    | cons i rest ih =>
      intro hl
      by_cases hif : i = f
      · subst hif
        rw [List.filterMap_cons_none (by simp [hfail]),
          List.filter_cons_of_neg (by simp), ih (fun x hx => hl x (by simp [hx]))]
      · rw [@List.filterMap_cons_some ℕ (List ℕ)
            (fun j => Option.map mergeChunks (outcome j)) i rest (mergeChunks (bufs i))
            (by
              show Option.map mergeChunks (outcome i) = some (mergeChunks (bufs i))
              rw [hsucc i (hl i (by simp)) hif]
              rfl)]
        rw [List.filter_cons_of_pos (by simpa using hif), List.map_cons,
          ih (fun x hx => hl x (by simp [hx]))]
  exact key (List.range n) (fun i hi => List.mem_range.mp hi)

/-- Witness for C2: 5 segments, concurrency 3, segment index 2 fails,
completion order inverted within each batch; the emitted sequence is
exactly the 4 merged buffers of segments 0, 1, 3, 4 in that order, with
no placeholder for segment 2. -/
theorem getAudioChunks_drops_failed_witness :
    getAudioChunks wOutcome2 5 3 wOrders2 = [[0, 1], [1, 2], [3, 4], [4, 5]] := by
  rw [getAudioChunks_drops_failed wOutcome2 5 3 wOrders2 2 wBufs2 (by decide) (by decide)
    (fun bs => List.reverse_perm (List.range' bs (min (bs + 3) 5 - bs)))
    (by decide) (by decide) (by decide)]
  decide

end NanoAITTS
